import Mathlib

/-!
Shallow embedding of the APWM diff engine (`src/diff.rs`), together with
theorems checking the natural-language specification against it.

Conventions used throughout:
* Rust `semver::Version` is an external dependency; it is modelled from the
  spec (§3) as a `major.minor.patch` triple of naturals with lexicographic
  ordering.  Pre-release/build metadata is not modelled.
* Rust `BTreeMap<K, V>` is modelled as a list of key-value pairs kept
  strictly sorted by key; `insertKV` models `BTreeMap::insert`.
* Strings are modelled as `List Char` where character-level parsing matters
  (`VersionRange` serialization), and as Lean `String` elsewhere.
-/

namespace APWM

/-- Modelled from the spec: `Version` (§3) of the external `semver` crate,
"a totally ordered semantic version (major.minor.patch ...)".  Only the
`major.minor.patch` components are modelled; equality and ordering are the
usual lexicographic ones on the numeric components. -/
structure Version where
  major : Nat
  minor : Nat
  patch : Nat
deriving DecidableEq

/-- Strict lexicographic order on versions (semver precedence restricted to
the numeric components). -/
def vlt (a b : Version) : Prop :=
  a.major < b.major ∨ (a.major = b.major ∧
    (a.minor < b.minor ∨ (a.minor = b.minor ∧ a.patch < b.patch)))

/-- Non-strict lexicographic order on versions. -/
def vle (a b : Version) : Prop :=
  a.major < b.major ∨ (a.major = b.major ∧
    (a.minor < b.minor ∨ (a.minor = b.minor ∧ a.patch ≤ b.patch)))

instance instDecVlt : ∀ a b, Decidable (vlt a b) := fun a b => by
  unfold vlt; exact inferInstance

instance instDecVle : ∀ a b, Decidable (vle a b) := fun a b => by
  unfold vle; exact inferInstance

instance : LinearOrder Version where
  le := vle
  lt := vlt
  le_refl := fun a => by show vle a a; simp [vle]
  le_trans := fun a b c h1 h2 => by
    have h1x : vle a b := h1
    have h2x : vle b c := h2
    show vle a c
    unfold vle at h1x h2x ⊢
    omega
  le_antisymm := fun a b h1 h2 => by
    have h1x : vle a b := h1
    have h2x : vle b a := h2
    obtain ⟨x1, y1, z1⟩ := a
    obtain ⟨x2, y2, z2⟩ := b
    simp only [vle] at h1x h2x
    simp only [Version.mk.injEq]
    omega
  le_total := fun a b => by
    show vle a b ∨ vle b a
    unfold vle
    omega
  lt_iff_le_not_le := fun a b => by
    show vlt a b ↔ vle a b ∧ ¬ vle b a
    unfold vlt vle
    omega
  decidableLE := instDecVle
  decidableEq := inferInstance
  decidableLT := instDecVlt

/-- Strict order on optional versions, as derived by Rust for
`Option<Version>`: `None` sorts before any `Some`, two `Some`s compare by the
inner versions. -/
def optVlt (a b : Option Version) : Prop :=
  match a, b with
  | none, none => False
  | none, some _ => True
  | some _, none => False
  | some x, some y => vlt x y

instance instDecOptVlt : ∀ a b, Decidable (optVlt a b)
  | none, none => isFalse (fun h => h)
  | none, some _ => isTrue trivial
  | some _, none => isFalse (fun h => h)
  | some x, some y => inferInstanceAs (Decidable (vlt x y))

/-- Range of versions.  Models the Rust tuple struct
`VersionRange(Option<Version>, Option<Version>)`; `fst` is the transition's
`from` endpoint and `snd` its `to` endpoint, `none` standing for absence. -/
structure VersionRange where
  fst : Option Version
  snd : Option Version
deriving DecidableEq

/-- Strict order on ranges, as derived by Rust's `#[derive(PartialOrd, Ord)]`
on the tuple struct: lexicographic on the two `Option<Version>` fields. -/
def rlt (a b : VersionRange) : Prop :=
  optVlt a.fst b.fst ∨ (a.fst = b.fst ∧ optVlt a.snd b.snd)

instance instDecRlt : ∀ a b, Decidable (rlt a b) := fun a b => by
  unfold rlt; exact inferInstance

/-- Diff payload attached to a transition, from `enum Diff` in `src/diff.rs`:
either a version was added (carrying the unified-diff text) or removed
(carrying nothing). -/
inductive Diff where
  | VersionAdded : String → Diff
  | VersionRemoved : Diff
deriving DecidableEq

/-- Model of `BTreeMap<VersionRange, Diff>::insert`: the map is a list of
key-value pairs kept strictly sorted by key; inserting places the new pair at
its ordered position, replacing any existing pair with an equal key. -/
def insertKV (k : VersionRange) (v : Diff) :
    List (VersionRange × Diff) → List (VersionRange × Diff)
  | [] => [(k, v)]
  | e :: rest =>
    if rlt k e.1 then (k, v) :: e :: rest
    else if k = e.1 then (k, v) :: rest
    else e :: insertKV k v rest

/-- Keys of a key-value list. -/
def keysOf (l : List (VersionRange × Diff)) : List VersionRange :=
  l.map Prod.fst

/-- Decimal digit characters of a natural number, most significant first.
Models the rendering of one numeric component by `Display for Version`. -/
def natChars (n : Nat) : List Char :=
  if n = 0 then ['0'] else ((Nat.digits 10 n).map Nat.digitChar).reverse

/-- Numeric value of a decimal digit character. -/
def charDigit (c : Char) : Nat := c.toNat - 48

/-- Parse of one numeric version component, modelled from the spec (standard
semantic-versioning rules): a non-empty all-digit string without leading
zeros. -/
def parseNat (cs : List Char) : Option Nat :=
  if cs ≠ [] ∧ cs.all Char.isDigit ∧ (cs = ['0'] ∨ cs.head? ≠ some '0')
  then some (cs.foldl (fun a c => 10 * a + charDigit c) 0)
  else none

/-- Textual form of a version: `major.minor.patch`.  Modelled from the spec:
the `Display` implementation of the external `semver` crate, restricted to
the numeric components. -/
def versionChars (v : Version) : List Char :=
  natChars v.major ++ '.' :: natChars v.minor ++ '.' :: natChars v.patch

/-- Split on a single character, as `str::split('.')`: every maximal run
between occurrences of `c` becomes one part, empty parts included. -/
def splitOnC (c : Char) : List Char → List (List Char)
  | [] => [[]]
  | x :: xs =>
    if x = c then [] :: splitOnC c xs
    else
      match splitOnC c xs with
      | [] => [[x]]
      | p :: ps => (x :: p) :: ps

/-- Parse of a full version string, modelled from the spec: exactly three
dot-separated numeric components (`Version::from_str` of the external
`semver` crate, restricted to the numeric components). -/
def versionFromChars (cs : List Char) : Option Version :=
  match splitOnC '.' cs with
  | [a, b, c] =>
    match parseNat a, parseNat b, parseNat c with
    | some x, some y, some z => some ⟨x, y, z⟩
    | _, _, _ => none
  | _ => none

/-- Split on the three-character separator `...`, as Rust's
`str::split("...")`: non-overlapping matches found left to right. -/
def splitDots : List Char → List (List Char)
  | [] => [[]]
  | x :: xs =>
    if x = '.' ∧ xs.take 2 = ['.', '.'] then [] :: splitDots (xs.drop 2)
    else
      match splitDots xs with
      | [] => [[x]]
      | p :: ps => (x :: p) :: ps
termination_by cs => cs.length
decreasing_by
  · simp only [List.length_drop, List.length_cons]
    omega
  · simp only [List.length_cons]
    omega

/-- Serialization of a range, from `impl Serialize for VersionRange`: the
text `<from>...<to>`, an absent endpoint rendered as the empty string. -/
def VersionRange.serialize (r : VersionRange) : List Char :=
  ((r.fst.map versionChars).getD [])
    ++ '.' :: '.' :: '.' :: ((r.snd.map versionChars).getD [])

/-- Parse of one side of a textual range: an empty side is an absent
endpoint, a non-empty side must parse as a version. -/
def parseSide (p : List Char) : Except String (Option Version) :=
  if p = [] then .ok none
  else
    match versionFromChars p with
    | some v => .ok (some v)
    | none => .error "unexpected character"

/-- Deserialization of a range, from `impl Deserialize for VersionRange`:
split on `...`, require exactly two parts, re-parse each non-empty part as a
version. -/
def VersionRange.deserialize (cs : List Char) : Except String VersionRange :=
  match splitDots cs with
  | [p0, p1] =>
    match parseSide p0, parseSide p1 with
    | .ok v0, .ok v1 => .ok ⟨v0, v1⟩
    | .error e, _ => .error e
    | .ok _, .error e => .error e
  | _ => .error "Fail to deserialize VersionRange, expected \x7Bfrom\x7D...\x7Bto\x7D"

/-- Materialized directory tree: a finite association of relative file paths
to textual file contents.  Models the contents of a temporary directory in
which one version of a world has been extracted. -/
def DirTree := List (String × String)

/-- Model of `std::fs::read_to_string(path).unwrap_or_else(|_| "")` inside
`diff_dir`: the content of the file at `p`, or the empty string when the file
does not exist (or is unreadable). -/
def readToString (d : DirTree) (p : String) : String :=
  ((d.find? (fun e => e.1 = p)).map Prod.snd).getD ""

/-- Whether a file exists at path `p` in the tree (the `Path::is_file` check
used for the unified-diff header labels). -/
def hasFile (d : DirTree) (p : String) : Bool :=
  (d.map Prod.fst).contains p

/-- Modelled from the spec: the line-based unified diff of the external
`similar` crate (§4.3), restricted to the contract the spec states: identical
contents produce the empty string, differing contents produce the
`---`/`+++` header labels followed by a single hunk that removes the old
lines and adds the new ones. -/
def unifiedDiff (fromLabel toLabel fromText toText : String) : String :=
  if fromText = toText then ""
  else
    "--- " ++ fromLabel ++ "\n+++ " ++ toLabel ++ "\n@@\n"
      ++ String.join ((fromText.splitOn "\n").map (fun l => "-" ++ l ++ "\n"))
      ++ String.join ((toText.splitOn "\n").map (fun l => "+" ++ l ++ "\n"))

/-- Union of the file paths of two trees, `from` paths first.  The source
collects the paths into a `HashSet` and iterates it in unspecified order; the
model fixes one order (every property proved here is order-insensitive). -/
def combinedPaths (fromDir toDir : DirTree) : List String :=
  (fromDir.map Prod.fst).dedup
    ++ ((toDir.map Prod.fst).dedup.filter (fun p => !(fromDir.map Prod.fst).contains p))

/-- Model of `diff_dir` from `src/diff.rs`: for every relative path present
in either tree, read both sides (absent side reads as empty), unified-diff
them with `/dev/null` standing for a missing file in the header label, and
concatenate the per-file diff texts. -/
def diff_dir (fromDir toDir : DirTree) : String :=
  (combinedPaths fromDir toDir).foldl
    (fun result file =>
      let from_value := readToString fromDir file
      let to_value := readToString toDir file
      let fromLabel := if hasFile fromDir file then file else "/dev/null"
      let toLabel := if hasFile toDir file then file else "/dev/null"
      result ++ unifiedDiff fromLabel toLabel from_value to_value)
    ""

/-- A world, at the interface the diff engine consumes (spec §3/§6): the file
stem of its configuration path (used as the diff record's `world_name`), the
ascending list of its known versions (the keys of the `BTreeMap<Version,
WorldOrigin>`), and the materialization capability `extract_to`, modelled as
a total function from a version to the directory tree it materializes. -/
structure World where
  path_stem : String
  versions : List Version
  extract : Version → DirTree

/-- Scan loop of `find_closest_version`: walk the sorted candidates, remember
the last one strictly below the target, stop at the first that is not. -/
def fcvLoop (target : Version) : List Version → Option Version → Option Version
  | [], cand => cand
  | v :: rest, cand => if v < target then fcvLoop target rest (some v) else cand

/-- Model of `find_closest_version` from `src/diff.rs`: sort the candidate
versions ascending, then scan for the greatest one strictly below the
target. -/
def find_closest_version (target_version : Version) (versions : List Version) :
    Option Version :=
  fcvLoop target_version (versions.insertionSort (· ≤ ·)) none

/-- Model of `diff_version` from `src/diff.rs`: materialize each present
endpoint into its own (initially empty) directory and diff the two
directories.  Materialization failure is not modelled (the claims under
check describe the successfully returned record). -/
def diff_version (from_world : World) (from_version : Option Version)
    (to_world : World) (to_version : Option Version) : String :=
  let from_dir := (from_version.map from_world.extract).getD []
  let to_dir := (to_version.map to_world.extract).getD []
  diff_dir from_dir to_dir

/-- Combined diff record for one world, from `struct CombinedDiff`: the world
name and the ordered mapping from transition to diff payload. -/
structure CombinedDiff where
  world_name : String
  diffs : List (VersionRange × Diff)

/-- Model of `diff_world` from `src/diff.rs`.  The three presence cases of
the source are reproduced: world added (chain the new versions in ascending
order, diffing each against its immediate predecessor), world removed (one
`VersionRemoved` per version, no diffing), world changed (closest-predecessor
diffs for versions only in `new`, removals for versions only in `old`).  The
`candidate_versions` vector of the source is dead code (it is pushed to but
never read) and is not modelled. -/
def diff_world (fromw tow : Option World) : Except String CombinedDiff :=
  match fromw, tow with
  | none, some new_world =>
    let res := new_world.versions.foldl
      (fun (st : Option Version × List (VersionRange × Diff)) version =>
        let diff := diff_version new_world st.1 new_world (some version)
        (some version,
          insertKV ⟨st.1, some version⟩ (Diff.VersionAdded diff) st.2))
      (none, [])
    .ok ⟨new_world.path_stem, res.2⟩
  | some old_world, none =>
    .ok ⟨old_world.path_stem,
      old_world.versions.foldl
        (fun acc version => insertKV ⟨some version, none⟩ Diff.VersionRemoved acc)
        []⟩
  | some old_world, some new_world =>
    let step1 := new_world.versions.foldl
      (fun acc version =>
        if version ∈ old_world.versions then acc
        else
          let previous_version := find_closest_version version old_world.versions
          let origin_diff :=
            diff_version old_world previous_version new_world (some version)
          insertKV ⟨previous_version, some version⟩
            (Diff.VersionAdded origin_diff) acc)
      []
    let step2 := old_world.versions.foldl
      (fun acc version =>
        if version ∈ new_world.versions then acc
        else insertKV ⟨some version, none⟩ Diff.VersionRemoved acc)
      step1
    .ok ⟨new_world.path_stem, step2⟩
  | none, none =>
    .error "You can't diff a non existent world with another non existent one"

/-- Expected contents of the diffs map in the world-added case: the versions
chained in order, each diffed (inside the new world) against the version just
before it, the first against nothing. -/
def chainEntries (w : World) : Option Version → List Version → List (VersionRange × Diff)
  | _, [] => []
  | prev, v :: rest =>
    (⟨prev, some v⟩,
      Diff.VersionAdded (diff_version w prev w (some v))) ::
      chainEntries w (some v) rest

/-- First loop of the world-changed case of `diff_world`: one
closest-predecessor `VersionAdded` entry per version only present in the new
world. -/
def changedStep1 (ow nw : World) : List (VersionRange × Diff) :=
  nw.versions.foldl
    (fun acc version =>
      if version ∈ ow.versions then acc
      else
        let previous_version := find_closest_version version ow.versions
        let origin_diff :=
          diff_version ow previous_version nw (some version)
        insertKV ⟨previous_version, some version⟩
          (Diff.VersionAdded origin_diff) acc)
    []

/-- Second loop of the world-changed case of `diff_world`: one
`VersionRemoved` entry per version only present in the old world, inserted
into the result of the first loop. -/
def changedStep2 (ow nw : World) : List (VersionRange × Diff) :=
  ow.versions.foldl
    (fun acc version =>
      if version ∈ nw.versions then acc
      else insertKV ⟨some version, none⟩ Diff.VersionRemoved acc)
    (changedStep1 ow nw)

/-- No two consecutive dot characters. -/
def noTwoDots (l : List Char) : Prop :=
  l.Chain' (fun x y => ¬ (x = '.' ∧ y = '.'))

/-- Executable check for `noTwoDots`. -/
def noTwoDotsB : List Char → Bool
  | [] => true
  | [_] => true
  | x :: y :: rest => !(x = '.' && y = '.') && noTwoDotsB (y :: rest)

/-- Extraction capability used by the concrete example worlds: every version
materializes to an empty tree. -/
def extractEmpty : Version → DirTree := fun _ => []

/-- Example world with versions 0.0.1, 0.0.2, 0.0.3 (the old side of the
repository's own change test). -/
def wAdd : World := ⟨"foobar", [⟨0, 0, 1⟩, ⟨0, 0, 2⟩, ⟨0, 0, 3⟩], extractEmpty⟩

/-- Example world with versions 0.0.1, 0.0.3, 0.0.4 (the new side of the
repository's own change test). -/
def wNew4 : World := ⟨"foobar", [⟨0, 0, 1⟩, ⟨0, 0, 3⟩, ⟨0, 0, 4⟩], extractEmpty⟩

theorem optVlt_irrefl (a : Option Version) : ¬ optVlt a a := by
  cases a with
  | none => exact fun h => h
  | some x => exact fun h => (lt_irrefl x h)

theorem optVlt_trans {a b c : Option Version}
    (h1 : optVlt a b) (h2 : optVlt b c) : optVlt a c := by
  cases a <;> cases b <;> cases c <;> simp only [optVlt] at * <;>
    first
    | trivial
    | exact lt_trans h1 h2

theorem optVlt_trichotomy (a b : Option Version) :
    optVlt a b ∨ a = b ∨ optVlt b a := by
  cases a with
  | none =>
    cases b with
    | none => exact Or.inr (Or.inl rfl)
    | some _ => exact Or.inl trivial
  | some x =>
    cases b with
    | none => exact Or.inr (Or.inr trivial)
    | some y =>
      rcases lt_trichotomy x y with h | h | h
      · exact Or.inl h
      · exact Or.inr (Or.inl (by rw [h]))
      · exact Or.inr (Or.inr h)

theorem rlt_irrefl (a : VersionRange) : ¬ rlt a a := by
  rintro (h | ⟨-, h⟩) <;> exact optVlt_irrefl _ h

theorem rlt_trans {a b c : VersionRange} (h1 : rlt a b) (h2 : rlt b c) :
    rlt a c := by
  rcases h1 with h1 | ⟨e1, h1⟩
  · rcases h2 with h2 | ⟨e2, h2⟩
    · exact Or.inl (optVlt_trans h1 h2)
    · exact Or.inl (e2 ▸ h1)
  · rcases h2 with h2 | ⟨e2, h2⟩
    · exact Or.inl (e1 ▸ h2)
    · exact Or.inr ⟨e1.trans e2, optVlt_trans h1 h2⟩

theorem rlt_asymm {a b : VersionRange} (h1 : rlt a b) : ¬ rlt b a :=
  fun h2 => rlt_irrefl a (rlt_trans h1 h2)

theorem rlt_trichotomy (a b : VersionRange) : rlt a b ∨ a = b ∨ rlt b a := by
  obtain ⟨a1, a2⟩ := a
  obtain ⟨b1, b2⟩ := b
  rcases optVlt_trichotomy a1 b1 with h | h | h
  · exact Or.inl (Or.inl h)
  · rcases optVlt_trichotomy a2 b2 with h2 | h2 | h2
    · exact Or.inl (Or.inr ⟨by simpa using h, h2⟩)
    · exact Or.inr (Or.inl (by simp [h, h2]))
    · exact Or.inr (Or.inr (Or.inr ⟨by simpa using h.symm, h2⟩))
  · exact Or.inr (Or.inr (Or.inl h))

theorem keysOf_nil : keysOf [] = [] := rfl

theorem keysOf_cons (e : VersionRange × Diff) (l : List (VersionRange × Diff)) :
    keysOf (e :: l) = e.1 :: keysOf l := rfl

/-- Any key of `insertKV k v l` is `k` or a key of `l`. -/
theorem mem_keys_insert {l : List (VersionRange × Diff)} {k k' : VersionRange}
    {v : Diff} (h : k' ∈ keysOf (insertKV k v l)) : k' = k ∨ k' ∈ keysOf l := by
  induction l with
  | nil =>
    simp only [insertKV, keysOf, List.map_cons, List.map_nil,
      List.mem_singleton] at h
    exact Or.inl h
  | cons e rest ih =>
    by_cases h1 : rlt k e.1
    · rw [insertKV, if_pos h1, keysOf_cons, keysOf_cons] at h
      rcases List.mem_cons.mp h with rfl | h
      · exact Or.inl rfl
      · exact Or.inr h
    · by_cases h2 : k = e.1
      · rw [insertKV, if_neg h1, if_pos h2, keysOf_cons] at h
        rcases List.mem_cons.mp h with rfl | h
        · exact Or.inl rfl
        · exact Or.inr (List.mem_cons.mpr (Or.inr h))
      · rw [insertKV, if_neg h1, if_neg h2, keysOf_cons] at h
        rcases List.mem_cons.mp h with rfl | h
        · exact Or.inr (List.mem_cons.mpr (Or.inl rfl))
        · rcases ih h with rfl | h
          · exact Or.inl rfl
          · exact Or.inr (List.mem_cons.mpr (Or.inr h))

/-- Inserting preserves strict sortedness of the keys. -/
theorem insertKV_sorted {l : List (VersionRange × Diff)} (k : VersionRange)
    (v : Diff) (h : (keysOf l).Pairwise rlt) :
    (keysOf (insertKV k v l)).Pairwise rlt := by
  induction l with
  | nil => simp [insertKV, keysOf]
  | cons e rest ih =>
    rw [keysOf_cons] at h
    rcases List.pairwise_cons.mp h with ⟨he, hrest⟩
    by_cases h1 : rlt k e.1
    · rw [insertKV, if_pos h1, keysOf_cons, keysOf_cons]
      refine List.pairwise_cons.mpr ⟨?_, h⟩
      intro x hx
      rcases List.mem_cons.mp hx with rfl | hx
      · exact h1
      · exact rlt_trans h1 (he x hx)
    · by_cases h2 : k = e.1
      · rw [insertKV, if_neg h1, if_pos h2, keysOf_cons]
        exact List.pairwise_cons.mpr ⟨fun x hx => h2 ▸ he x hx, hrest⟩
      · rw [insertKV, if_neg h1, if_neg h2, keysOf_cons]
        refine List.pairwise_cons.mpr ⟨?_, ih hrest⟩
        have hek : rlt e.1 k := by
          rcases rlt_trichotomy k e.1 with h' | h' | h'
          · exact absurd h' h1
          · exact absurd h' h2
          · exact h'
        intro x hx
        rcases mem_keys_insert hx with rfl | hx
        · exact hek
        · exact he x hx

/-- Membership in an insertion result, over a sorted key-value list: the new
pair is present, and the old pairs survive except the one keyed like the new
pair. -/
theorem mem_insertKV {l : List (VersionRange × Diff)}
    (hs : (keysOf l).Pairwise rlt) (k : VersionRange) (v : Diff)
    (k' : VersionRange) (v' : Diff) :
    (k', v') ∈ insertKV k v l ↔
      (k' = k ∧ v' = v) ∨ ((k', v') ∈ l ∧ k' ≠ k) := by
  induction l with
  | nil =>
    simp only [insertKV, List.mem_singleton, Prod.mk.injEq,
      List.not_mem_nil, false_and, or_false]
  | cons e rest ih =>
    rw [keysOf_cons] at hs
    rcases List.pairwise_cons.mp hs with ⟨he, hrest⟩
    have hmemkey : ∀ w, (k', w) ∈ rest → rlt e.1 k' := by
      intro w hw
      exact he k' (List.mem_map_of_mem Prod.fst hw)
    by_cases h1 : rlt k e.1
    · rw [insertKV, if_pos h1]
      constructor
      · intro hmem0
        rcases List.mem_cons.mp hmem0 with heq | hmem1
        · simp only [Prod.mk.injEq] at heq
          exact Or.inl heq
        · refine Or.inr ⟨hmem1, ?_⟩
          intro hkk
          rcases List.mem_cons.mp hmem1 with heq | hmem2
          · have hk'e : k' = e.1 := congrArg Prod.fst heq
            exact rlt_irrefl _ (hk'e ▸ hkk ▸ h1)
          · exact rlt_asymm (hkk ▸ h1) (hmemkey _ hmem2)
      · rintro (⟨rfl, rfl⟩ | ⟨hmem1, hne⟩)
        · exact List.mem_cons_self _ _
        · exact List.mem_cons.mpr (Or.inr hmem1)
    · by_cases h2 : k = e.1
      · rw [insertKV, if_neg h1, if_pos h2]
        constructor
        · intro hmem0
          rcases List.mem_cons.mp hmem0 with heq | hmem1
          · simp only [Prod.mk.injEq] at heq
            exact Or.inl heq
          · refine Or.inr ⟨List.mem_cons.mpr (Or.inr hmem1), ?_⟩
            intro hkk
            exact rlt_irrefl _ (hkk ▸ h2 ▸ hmemkey _ hmem1)
        · rintro (⟨rfl, rfl⟩ | ⟨hmem1, hne⟩)
          · exact List.mem_cons_self _ _
          · rcases List.mem_cons.mp hmem1 with heq | hmem2
            · have hk'e : k' = e.1 := congrArg Prod.fst heq
              exact absurd (hk'e.trans h2.symm) hne
            · exact List.mem_cons.mpr (Or.inr hmem2)
      · rw [insertKV, if_neg h1, if_neg h2]
        constructor
        · intro hmem0
          rcases List.mem_cons.mp hmem0 with heq | hmem1
          · refine Or.inr ⟨List.mem_cons.mpr (Or.inl heq), ?_⟩
            intro hkk
            exact h2 (hkk ▸ (congrArg Prod.fst heq : k' = e.1))
          · rcases (ih hrest).mp hmem1 with ⟨rfl, rfl⟩ | ⟨hmem2, hne⟩
            · exact Or.inl ⟨rfl, rfl⟩
            · exact Or.inr ⟨List.mem_cons.mpr (Or.inr hmem2), hne⟩
        · rintro (⟨rfl, rfl⟩ | ⟨hmem1, hne⟩)
          · exact List.mem_cons.mpr (Or.inr ((ih hrest).mpr (Or.inl ⟨rfl, rfl⟩)))
          · rcases List.mem_cons.mp hmem1 with heq | hmem2
            · exact heq ▸ List.mem_cons_self _ _
            · exact List.mem_cons.mpr
                (Or.inr ((ih hrest).mpr (Or.inr ⟨hmem2, hne⟩)))

theorem unifiedDiff_eq_empty (fl tl t : String) : unifiedDiff fl tl t t = "" := by
  simp [unifiedDiff]

/-- Invariant of the scan loop of `find_closest_version`, over a sorted
candidate list. -/
theorem fcvLoop_spec (T : Version) :
    ∀ (L : List Version) (cand : Option Version),
      L.Sorted (· ≤ ·) →
      (∀ c, cand = some c → c < T) →
      (∀ c, cand = some c → ∀ x ∈ L, c ≤ x) →
      ((fcvLoop T L cand = none → cand = none ∧ ∀ c ∈ L, ¬ c < T) ∧
       (∀ m, fcvLoop T L cand = some m →
         (m ∈ L ∨ cand = some m) ∧ m < T ∧
         (∀ c ∈ L, c < T → c ≤ m) ∧ (∀ c, cand = some c → c ≤ m))) := by
  intro L
  induction L with
  | nil =>
    intro cand _ hlt _
    constructor
    · intro h
      exact ⟨h, by simp⟩
    · intro m hm
      have hcm : cand = some m := hm
      refine ⟨Or.inr hcm, hlt m hcm, by simp, ?_⟩
      intro c hc
      exact le_of_eq (Option.some.inj (hc.symm.trans hcm))
  | cons v rest ih =>
    intro cand hs hlt hle
    have hv : ∀ x ∈ rest, v ≤ x := (List.sorted_cons.mp hs).1
    have hrest : rest.Sorted (· ≤ ·) := (List.sorted_cons.mp hs).2
    by_cases hvT : v < T
    · rw [fcvLoop, if_pos hvT]
      have hih := ih (some v) hrest
        (fun c hc => (Option.some.inj hc) ▸ hvT)
        (fun c hc x hx => (Option.some.inj hc) ▸ hv x hx)
      constructor
      · intro h
        exact absurd ((hih.1 h).1) (by simp)
      · intro m hm
        obtain ⟨hmem, hmT, hall, hcand⟩ := hih.2 m hm
        have hvm : v ≤ m := hcand v rfl
        refine ⟨?_, hmT, ?_, ?_⟩
        · rcases hmem with h | h
          · exact Or.inl (List.mem_cons.mpr (Or.inr h))
          · exact Or.inl (List.mem_cons.mpr (Or.inl (Option.some.inj h).symm))
        · intro c hc hcT
          rcases List.mem_cons.mp hc with rfl | hc
          · exact hvm
          · exact hall c hc hcT
        · intro c hc
          exact le_trans (hle c hc v (List.mem_cons_self v rest)) hvm
    · rw [fcvLoop, if_neg hvT]
      have hnone : ∀ c ∈ v :: rest, ¬ c < T := by
        intro c hc hcT
        rcases List.mem_cons.mp hc with rfl | hc
        · exact hvT hcT
        · exact hvT (lt_of_le_of_lt (hv c hc) hcT)
      exact ⟨fun h => ⟨h, hnone⟩,
        fun m hm => ⟨Or.inr hm, hlt m hm,
          fun c hc hcT => absurd hcT (hnone c hc),
          fun c hc => le_of_eq (Option.some.inj (hc.symm.trans hm))⟩⟩

/-- Specification of `find_closest_version` relative to the unsorted
candidate list it receives. -/
theorem find_closest_version_correct (T : Version) (S : List Version) :
    (find_closest_version T S = none ↔ ∀ c ∈ S, ¬ c < T) ∧
    (∀ m, find_closest_version T S = some m →
      m ∈ S ∧ m < T ∧ ∀ c ∈ S, c < T → c ≤ m) := by
  have hperm := List.perm_insertionSort (α := Version) (· ≤ ·) S
  have hsorted := List.sorted_insertionSort (α := Version) (· ≤ ·) S
  have hspec := fcvLoop_spec T (S.insertionSort (· ≤ ·)) none hsorted
    (fun c hc => by cases hc) (fun c hc => by cases hc)
  constructor
  · constructor
    · intro h
      intro c hc
      exact (hspec.1 h).2 c (hperm.mem_iff.mpr hc)
    · intro h
      cases hres : find_closest_version T S with
      | none => rfl
      | some m =>
        obtain ⟨hmem, hmT, -⟩ := hspec.2 m hres
        rcases hmem with hmem | hmem
        · exact absurd hmT (h m (hperm.mem_iff.mp hmem))
        · cases hmem
  · intro m hm
    obtain ⟨hmem, hmT, hall, -⟩ := hspec.2 m hm
    rcases hmem with hmem | hmem
    · exact ⟨hperm.mem_iff.mp hmem, hmT,
        fun c hc hcT => hall c (hperm.mem_iff.mpr hc) hcT⟩
    · cases hmem

theorem diff_dir_of_pointwise_eq {d d' : DirTree}
    (h : ∀ p, readToString d p = readToString d' p) : diff_dir d d' = "" := by
  unfold diff_dir
  generalize combinedPaths d d' = paths
  have hstep : ∀ (paths : List String) (acc : String),
      List.foldl
        (fun result file =>
          let from_value := readToString d file
          let to_value := readToString d' file
          let fromLabel := if hasFile d file then file else "/dev/null"
          let toLabel := if hasFile d' file then file else "/dev/null"
          result ++ unifiedDiff fromLabel toLabel from_value to_value)
        acc paths = acc := by
    intro paths
    induction paths with
    | nil => intro acc; rfl
    | cons p ps ih =>
      intro acc
      rw [List.foldl_cons]
      have : unifiedDiff (if hasFile d p then p else "/dev/null")
          (if hasFile d' p then p else "/dev/null")
          (readToString d p) (readToString d' p) = "" := by
        rw [h p]
        exact unifiedDiff_eq_empty _ _ _
      simp only [this]
      rw [String.append_empty]
      exact ih acc
  exact hstep paths ""

/-- Inserting a key greater than every existing key appends at the end. -/
theorem insertKV_append {l : List (VersionRange × Diff)} {k : VersionRange}
    (v : Diff) (h : ∀ k' ∈ keysOf l, rlt k' k) :
    insertKV k v l = l ++ [(k, v)] := by
  induction l with
  | nil => rfl
  | cons e rest ih =>
    have hek : rlt e.1 k := h e.1 (by simp [keysOf])
    rw [insertKV, if_neg (rlt_asymm hek), if_neg ?_]
    · rw [ih (fun k' hk' => h k' (by simp [keysOf_cons, hk']))]
      rfl
    · rintro rfl
      exact rlt_irrefl _ hek

/-- The world-added fold produces exactly the chain entries (appended to the
accumulator), provided the versions are ascending, all above `prev`, and the
accumulated keys are all below `prev`. -/
theorem addedFold_eq (w : World) :
    ∀ (l : List Version) (prev : Option Version)
      (acc : List (VersionRange × Diff)),
      l.Sorted (· < ·) →
      (∀ v ∈ l, optVlt prev (some v)) →
      (∀ k ∈ keysOf acc, optVlt k.fst prev) →
      (l.foldl
        (fun (st : Option Version × List (VersionRange × Diff)) version =>
          let diff := diff_version w st.1 w (some version)
          (some version,
            insertKV ⟨st.1, some version⟩ (Diff.VersionAdded diff) st.2))
        (prev, acc)).2 = acc ++ chainEntries w prev l := by
  intro l
  induction l with
  | nil =>
    intro prev acc _ _ _
    simp [chainEntries]
  | cons v rest ih =>
    intro prev acc hs hprev hacc
    have hv : ∀ x ∈ rest, v < x := (List.sorted_cons.mp hs).1
    have hrest : rest.Sorted (· < ·) := (List.sorted_cons.mp hs).2
    rw [List.foldl_cons]
    have hins : insertKV ⟨prev, some v⟩
        (Diff.VersionAdded (diff_version w prev w (some v))) acc
        = acc ++ [(⟨prev, some v⟩,
            Diff.VersionAdded (diff_version w prev w (some v)))] :=
      insertKV_append _ (fun k hk => Or.inl (hacc k hk))
    have hstep := ih (some v)
      (acc ++ [(⟨prev, some v⟩,
        Diff.VersionAdded (diff_version w prev w (some v)))])
      hrest
      (fun x hx => hv x hx)
      (by
        intro k hk
        rcases List.mem_map.mp hk with ⟨e, he, rfl⟩
        rcases List.mem_append.mp he with he | he
        · exact optVlt_trans (hacc e.1 (List.mem_map_of_mem Prod.fst he))
            (hprev v (List.mem_cons_self v rest))
        · rcases List.mem_singleton.mp he with rfl
          exact hprev v (List.mem_cons_self v rest))
    simp only [hins] at hstep ⊢
    rw [hstep, chainEntries, List.append_assoc]
    rfl

/-- The world-removed fold produces exactly one removal entry per version
(appended to the accumulator), provided the versions are ascending and above
every accumulated key. -/
theorem removedFold_eq :
    ∀ (l : List Version) (acc : List (VersionRange × Diff)),
      l.Sorted (· < ·) →
      (∀ k ∈ keysOf acc, ∀ v ∈ l, rlt k ⟨some v, none⟩) →
      l.foldl
        (fun acc version => insertKV ⟨some version, none⟩ Diff.VersionRemoved acc)
        acc
        = acc ++ l.map (fun v => (⟨some v, none⟩, Diff.VersionRemoved)) := by
  intro l
  induction l with
  | nil =>
    intro acc _ _
    simp
  | cons v rest ih =>
    intro acc hs hacc
    have hv : ∀ x ∈ rest, v < x := (List.sorted_cons.mp hs).1
    have hrest : rest.Sorted (· < ·) := (List.sorted_cons.mp hs).2
    rw [List.foldl_cons]
    have hins : insertKV ⟨some v, none⟩ Diff.VersionRemoved acc
        = acc ++ [(⟨some v, none⟩, Diff.VersionRemoved)] :=
      insertKV_append _ (fun k hk => hacc k hk v (List.mem_cons_self v rest))
    have hacc2 : ∀ k ∈ keysOf (acc ++ [(⟨some v, none⟩, Diff.VersionRemoved)]),
        ∀ x ∈ rest, rlt k ⟨some x, none⟩ := by
      intro k hk x hx
      rcases List.mem_map.mp hk with ⟨e, he, rfl⟩
      rcases List.mem_append.mp he with he | he
      · exact hacc e.1 (List.mem_map_of_mem Prod.fst he) x
          (List.mem_cons.mpr (Or.inr hx))
      · rcases List.mem_singleton.mp he with rfl
        exact Or.inl (hv x hx)
    rw [hins]
    rw [ih (acc ++ [(VersionRange.mk (some v) none, Diff.VersionRemoved)]) hrest hacc2]
    rw [List.map_cons, List.append_assoc]
    rfl

/-- Keys appearing after a filtered-insert fold, generic in the filter, the
key function and the value function: sortedness is preserved. -/
theorem foldl_insert_sorted (p : Version → Prop) [DecidablePred p]
    (key : Version → VersionRange) (dv : Version → Diff) :
    ∀ (l : List Version) (acc : List (VersionRange × Diff)),
      (keysOf acc).Pairwise rlt →
      (keysOf (l.foldl
        (fun acc v => if p v then acc else insertKV (key v) (dv v) acc)
        acc)).Pairwise rlt := by
  intro l
  induction l with
  | nil => intro acc h; exact h
  | cons v rest ih =>
    intro acc h
    rw [List.foldl_cons]
    by_cases hp : p v
    · rw [if_pos hp]
      exact ih acc h
    · rw [if_neg hp]
      exact ih _ (insertKV_sorted _ _ h)

/-- Membership after a filtered-insert fold: an entry is either an untouched
accumulator entry or the entry of one of the newly processed versions.
Requires the key function to be injective and the processed keys to be fresh
for the accumulator. -/
theorem foldl_insert_mem (p : Version → Prop) [DecidablePred p]
    (key : Version → VersionRange) (dv : Version → Diff)
    (hinj : ∀ v w, key v = key w → v = w) :
    ∀ (l : List Version) (acc : List (VersionRange × Diff)),
      (keysOf acc).Pairwise rlt →
      l.Nodup →
      (∀ v ∈ l, ¬ p v → key v ∉ keysOf acc) →
      ∀ k d,
        ((k, d) ∈ l.foldl
          (fun acc v => if p v then acc else insertKV (key v) (dv v) acc)
          acc ↔
        ((k, d) ∈ acc ∨ ∃ v, v ∈ l ∧ ¬ p v ∧ k = key v ∧ d = dv v)) := by
  intro l
  induction l with
  | nil =>
    intro acc _ _ _ k d
    simp
  | cons v rest ih =>
    intro acc hacc hnodup hfresh k d
    have hvrest : v ∉ rest := (List.nodup_cons.mp hnodup).1
    have hnodup2 : rest.Nodup := (List.nodup_cons.mp hnodup).2
    rw [List.foldl_cons]
    by_cases hp : p v
    · rw [if_pos hp]
      rw [ih acc hacc hnodup2
        (fun w hw hpw => hfresh w (List.mem_cons.mpr (Or.inr hw)) hpw) k d]
      constructor
      · rintro (h | ⟨w, hw, hpw, rfl, rfl⟩)
        · exact Or.inl h
        · exact Or.inr ⟨w, List.mem_cons.mpr (Or.inr hw), hpw, rfl, rfl⟩
      · rintro (h | ⟨w, hw, hpw, rfl, rfl⟩)
        · exact Or.inl h
        · rcases List.mem_cons.mp hw with rfl | hw
          · exact absurd hp hpw
          · exact Or.inr ⟨w, hw, hpw, rfl, rfl⟩
    · rw [if_neg hp]
      have hacc2 : (keysOf (insertKV (key v) (dv v) acc)).Pairwise rlt :=
        insertKV_sorted _ _ hacc
      have hfresh2 : ∀ w ∈ rest, ¬ p w →
          key w ∉ keysOf (insertKV (key v) (dv v) acc) := by
        intro w hw hpw hmem
        rcases mem_keys_insert hmem with heq | hmem
        · exact hvrest ((hinj w v heq) ▸ hw)
        · exact hfresh w (List.mem_cons.mpr (Or.inr hw)) hpw hmem
      rw [ih _ hacc2 hnodup2 hfresh2 k d,
        mem_insertKV hacc (key v) (dv v) k d]
      constructor
      · rintro ((⟨rfl, rfl⟩ | ⟨hmem, hne⟩) | ⟨w, hw, hpw, rfl, rfl⟩)
        · exact Or.inr ⟨v, List.mem_cons_self v rest, hp, rfl, rfl⟩
        · exact Or.inl hmem
        · exact Or.inr ⟨w, List.mem_cons.mpr (Or.inr hw), hpw, rfl, rfl⟩
      · rintro (hmem | ⟨w, hw, hpw, rfl, rfl⟩)
        · refine Or.inl (Or.inr ⟨hmem, ?_⟩)
          rintro rfl
          exact hfresh v (List.mem_cons_self v rest) hp
            (List.mem_map_of_mem Prod.fst hmem)
        · rcases List.mem_cons.mp hw with rfl | hw
          · exact Or.inl (Or.inl ⟨rfl, rfl⟩)
          · exact Or.inr ⟨w, hw, hpw, rfl, rfl⟩

/-- In the world-added case, `diff_world` returns exactly the ascending chain
of `VersionAdded` entries. -/
theorem diff_world_added_eq (w : World) (hw : w.versions.Sorted (· < ·)) :
    diff_world none (some w)
      = .ok ⟨w.path_stem, chainEntries w none w.versions⟩ := by
  show Except.ok
      (CombinedDiff.mk w.path_stem
        (w.versions.foldl
          (fun (st : Option Version × List (VersionRange × Diff)) version =>
            let diff := diff_version w st.1 w (some version)
            (some version,
              insertKV ⟨st.1, some version⟩ (Diff.VersionAdded diff) st.2))
          (none, [])).2)
    = _
  rw [addedFold_eq w w.versions none [] hw (fun v _ => trivial)
    (by intro k hk; cases hk)]
  rfl

/-- In the world-removed case, `diff_world` returns exactly one
`VersionRemoved` entry per version of the old world. -/
theorem diff_world_removed_eq (w : World) (hw : w.versions.Sorted (· < ·)) :
    diff_world (some w) none
      = .ok ⟨w.path_stem,
          w.versions.map (fun v => (⟨some v, none⟩, Diff.VersionRemoved))⟩ := by
  show Except.ok
      (CombinedDiff.mk w.path_stem
        (w.versions.foldl
          (fun acc version =>
            insertKV ⟨some version, none⟩ Diff.VersionRemoved acc)
          []))
    = _
  rw [removedFold_eq w.versions [] hw (by intro k hk; cases hk)]
  rfl

/-- The world-changed case of `diff_world` computes the two loops above. -/
theorem diff_world_changed_eq (ow nw : World) :
    diff_world (some ow) (some nw) = .ok ⟨nw.path_stem, changedStep2 ow nw⟩ :=
  rfl

theorem changedStep1_sorted (ow nw : World) :
    (keysOf (changedStep1 ow nw)).Pairwise rlt := by
  unfold changedStep1
  exact foldl_insert_sorted (· ∈ ow.versions)
    (fun v => ⟨find_closest_version v ow.versions, some v⟩)
    (fun v => Diff.VersionAdded
      (diff_version ow (find_closest_version v ow.versions) nw (some v)))
    nw.versions [] List.Pairwise.nil

theorem changedStep2_sorted (ow nw : World) :
    (keysOf (changedStep2 ow nw)).Pairwise rlt := by
  unfold changedStep2
  exact foldl_insert_sorted (· ∈ nw.versions)
    (fun v => ⟨some v, none⟩) (fun _ => Diff.VersionRemoved)
    ow.versions (changedStep1 ow nw) (changedStep1_sorted ow nw)

theorem changedStep1_mem (ow nw : World) (hnw : nw.versions.Sorted (· < ·))
    (k : VersionRange) (d : Diff) :
    (k, d) ∈ changedStep1 ow nw ↔
      ∃ v, v ∈ nw.versions ∧ v ∉ ow.versions ∧
        k = ⟨find_closest_version v ow.versions, some v⟩ ∧
        d = Diff.VersionAdded
          (diff_version ow (find_closest_version v ow.versions) nw (some v)) := by
  unfold changedStep1
  rw [foldl_insert_mem (· ∈ ow.versions)
    (fun v => ⟨find_closest_version v ow.versions, some v⟩)
    (fun v => Diff.VersionAdded
      (diff_version ow (find_closest_version v ow.versions) nw (some v)))
    (fun v w h => Option.some.inj (congrArg VersionRange.snd h))
    nw.versions [] List.Pairwise.nil
    (hnw.imp (fun h => ne_of_lt h))
    (fun v _ _ h => by cases h) k d]
  simp only [List.not_mem_nil, false_or]

theorem changedStep2_mem (ow nw : World) (how : ow.versions.Sorted (· < ·))
    (hnw : nw.versions.Sorted (· < ·)) (k : VersionRange) (d : Diff) :
    (k, d) ∈ changedStep2 ow nw ↔
      (∃ v, v ∈ nw.versions ∧ v ∉ ow.versions ∧
        k = ⟨find_closest_version v ow.versions, some v⟩ ∧
        d = Diff.VersionAdded
          (diff_version ow (find_closest_version v ow.versions) nw (some v))) ∨
      (∃ v, v ∈ ow.versions ∧ v ∉ nw.versions ∧
        k = ⟨some v, none⟩ ∧ d = Diff.VersionRemoved) := by
  unfold changedStep2
  rw [foldl_insert_mem (· ∈ nw.versions)
    (fun v => ⟨some v, none⟩) (fun _ => Diff.VersionRemoved)
    (fun v w h => Option.some.inj (congrArg VersionRange.fst h))
    ow.versions (changedStep1 ow nw) (changedStep1_sorted ow nw)
    (how.imp (fun h => ne_of_lt h))
    ?_ k d]
  · rw [changedStep1_mem ow nw hnw k d]
  · intro v _ _ hmem
    rcases List.mem_map.mp hmem with ⟨e, he, hke⟩
    obtain ⟨w, -, -, hk, -⟩ :=
      (changedStep1_mem ow nw hnw e.1 e.2).mp (by rw [Prod.mk.eta]; exact he)
    have : (none : Option Version) = some w := by
      have h2 := congrArg VersionRange.snd (hke.symm.trans hk)
      simpa using h2
    cases this

theorem charDigit_digitChar {d : Nat} (h : d < 10) :
    charDigit (Nat.digitChar d) = d := by
  interval_cases d <;> rfl

theorem isDigit_digitChar {d : Nat} (h : d < 10) :
    (Nat.digitChar d).isDigit = true := by
  interval_cases d <;> rfl

theorem digitChar_ne_zero {d : Nat} (h : d < 10) (h0 : d ≠ 0) :
    Nat.digitChar d ≠ '0' := by
  interval_cases d
  · exact absurd rfl h0
  all_goals decide

theorem natChars_ne_nil (n : Nat) : natChars n ≠ [] := by
  unfold natChars
  by_cases h : n = 0
  · rw [if_pos h]
    exact List.cons_ne_nil _ _
  · rw [if_neg h]
    simp only [ne_eq, List.reverse_eq_nil_iff, List.map_eq_nil_iff]
    exact Nat.digits_ne_nil_iff_ne_zero.mpr h

theorem natChars_all_digits (n : Nat) : ∀ c ∈ natChars n, c.isDigit = true := by
  unfold natChars
  by_cases h : n = 0
  · rw [if_pos h]
    intro c hc
    rcases List.mem_singleton.mp hc with rfl
    rfl
  · rw [if_neg h]
    intro c hc
    rcases List.mem_map.mp (List.mem_reverse.mp hc) with ⟨d, hd, rfl⟩
    exact isDigit_digitChar (Nat.digits_lt_base (by norm_num) hd)

theorem natChars_no_dot (n : Nat) : ∀ c ∈ natChars n, c ≠ '.' := by
  intro c hc
  have hdig := natChars_all_digits n c hc
  intro hcdot
  rw [hcdot] at hdig
  exact absurd hdig (by decide)

/-- Horner evaluation of printed digits recovers the digit-list value. -/
theorem foldr_digitChars (l : List Nat) (h : ∀ d ∈ l, d < 10) :
    List.foldr (fun d y => 10 * y + charDigit (Nat.digitChar d)) 0 l
      = Nat.ofDigits 10 l := by
  induction l with
  | nil => rfl
  | cons d rest ih =>
    rw [List.foldr_cons, Nat.ofDigits_cons,
      ih (fun x hx => h x (List.mem_cons.mpr (Or.inr hx))),
      charDigit_digitChar (h d (List.mem_cons_self d rest))]
    omega

/-- Parsing the printed decimal form of a natural number recovers it. -/
theorem parseNat_natChars (n : Nat) : parseNat (natChars n) = some n := by
  by_cases h : n = 0
  · subst h
    rfl
  · have hnc : natChars n = ((Nat.digits 10 n).map Nat.digitChar).reverse := by
      unfold natChars
      rw [if_neg h]
    have hne : natChars n ≠ [] := natChars_ne_nil n
    have hdigits : (natChars n).all Char.isDigit = true :=
      List.all_eq_true.mpr (fun c hc => natChars_all_digits n c hc)
    have hdne : Nat.digits 10 n ≠ [] := Nat.digits_ne_nil_iff_ne_zero.mpr h
    have hhead : (natChars n).head? ≠ some '0' := by
      rw [hnc, List.head?_reverse, List.getLast?_map,
        List.getLast?_eq_getLast_of_ne_nil hdne]
      have hlast := Nat.getLast_digit_ne_zero 10 h
      have hlt : (Nat.digits 10 n).getLast hdne < 10 :=
        Nat.digits_lt_base (by norm_num) (List.getLast_mem hdne)
      intro hc
      exact digitChar_ne_zero hlt hlast (Option.some.inj hc)
    unfold parseNat
    rw [if_pos ⟨hne, hdigits, Or.inr hhead⟩]
    congr 1
    rw [hnc, List.foldl_reverse, List.foldr_map]
    exact (foldr_digitChars _ (fun d hd => Nat.digits_lt_base (by norm_num) hd)).trans
      (Nat.ofDigits_digits 10 n)

theorem noTwoDots_of_no_dot {l : List Char} (h : ∀ c ∈ l, c ≠ '.') :
    noTwoDots l := by
  induction l with
  | nil => exact List.chain'_nil
  | cons x xs ih =>
    refine List.chain'_cons'.mpr ⟨?_, ih (fun c hc => h c (List.mem_cons.mpr (Or.inr hc)))⟩
    intro y _ hxy
    exact h x (List.mem_cons_self x xs) hxy.1

theorem splitOnC_ne_nil (c : Char) (l : List Char) : splitOnC c l ≠ [] := by
  cases l with
  | nil => exact List.cons_ne_nil _ _
  | cons x xs =>
    rw [splitOnC]
    by_cases hx : x = c
    · rw [if_pos hx]
      exact List.cons_ne_nil _ _
    · rw [if_neg hx]
      cases hs : splitOnC c xs with
      | nil => exact List.cons_ne_nil _ _
      | cons p ps => exact List.cons_ne_nil _ _

theorem splitOnC_no_sep {c : Char} {l : List Char} (h : ∀ x ∈ l, x ≠ c) :
    splitOnC c l = [l] := by
  induction l with
  | nil => rfl
  | cons x xs ih =>
    rw [splitOnC, if_neg (h x (List.mem_cons_self x xs)),
      ih (fun y hy => h y (List.mem_cons.mpr (Or.inr hy)))]

theorem splitOnC_append {c : Char} {a : List Char} (h : ∀ x ∈ a, x ≠ c)
    (b : List Char) : splitOnC c (a ++ c :: b) = a :: splitOnC c b := by
  induction a with
  | nil =>
    rw [List.nil_append, splitOnC, if_pos rfl]
  | cons x a2 ih =>
    rw [List.cons_append, splitOnC,
      if_neg (h x (List.mem_cons_self x a2)),
      ih (fun y hy => h y (List.mem_cons.mpr (Or.inr hy)))]

theorem versionChars_ne_nil (v : Version) : versionChars v ≠ [] := by
  unfold versionChars
  intro h
  exact absurd (List.append_eq_nil.mp h).2 (List.cons_ne_nil _ _)

/-- Splitting the printed form of a version on dots yields exactly its three
printed components. -/
theorem splitOnC_versionChars (v : Version) :
    splitOnC '.' (versionChars v)
      = [natChars v.major, natChars v.minor, natChars v.patch] := by
  unfold versionChars
  rw [List.append_assoc, List.cons_append,
    splitOnC_append (natChars_no_dot v.major),
    splitOnC_append (natChars_no_dot v.minor),
    splitOnC_no_sep (natChars_no_dot v.patch)]

/-- Parsing the printed form of a version recovers it. -/
theorem versionFromChars_versionChars (v : Version) :
    versionFromChars (versionChars v) = some v := by
  simp only [versionFromChars, splitOnC_versionChars, parseNat_natChars]

theorem parseSide_versionChars (v : Version) :
    parseSide (versionChars v) = .ok (some v) := by
  unfold parseSide
  rw [if_neg (versionChars_ne_nil v), versionFromChars_versionChars]

theorem parseSide_ok_none {p : List Char} (h : parseSide p = .ok none) :
    p = [] := by
  by_cases hp : p = []
  · exact hp
  · exfalso
    unfold parseSide at h
    rw [if_neg hp] at h
    cases hv : versionFromChars p with
    | none => rw [hv] at h; cases h
    | some v => rw [hv] at h; cases h

theorem getLast?_dotCons {l : List Char} (h : l ≠ []) :
    ('.' :: l).getLast? = l.getLast? := by
  rw [← List.singleton_append, List.getLast?_append_of_ne_nil _ h]

theorem versionChars_getLast (v : Version) :
    (versionChars v).getLast? = (natChars v.patch).getLast? := by
  unfold versionChars
  rw [List.getLast?_append_of_ne_nil _ (List.cons_ne_nil _ _),
    getLast?_dotCons (natChars_ne_nil _)]

theorem versionChars_getLast_ne_dot (v : Version) :
    (versionChars v).getLast? ≠ some '.' := by
  rw [versionChars_getLast]
  intro hc
  exact natChars_no_dot v.patch '.'
    (List.mem_of_mem_getLast? (Option.mem_def.mpr hc)) rfl

theorem versionChars_noTwoDots (v : Version) : noTwoDots (versionChars v) := by
  unfold versionChars noTwoDots
  refine List.Chain'.append (List.Chain'.append ?_ ?_ ?_) ?_ ?_
  · exact noTwoDots_of_no_dot (natChars_no_dot v.major)
  · refine List.chain'_cons'.mpr
      ⟨?_, noTwoDots_of_no_dot (natChars_no_dot v.minor)⟩
    intro y hy hxy
    exact natChars_no_dot v.minor y (List.mem_of_mem_head? hy) hxy.2
  · intro x hx y hy hxy
    exact natChars_no_dot v.major x (List.mem_of_mem_getLast? hx) hxy.1
  · refine List.chain'_cons'.mpr
      ⟨?_, noTwoDots_of_no_dot (natChars_no_dot v.patch)⟩
    intro y hy hxy
    exact natChars_no_dot v.patch y (List.mem_of_mem_head? hy) hxy.2
  · intro x hx y hy hxy
    rw [List.getLast?_append_of_ne_nil _ (List.cons_ne_nil _ _),
      getLast?_dotCons (natChars_ne_nil _)] at hx
    exact natChars_no_dot v.minor x (List.mem_of_mem_getLast? hx) hxy.1

theorem splitDots_ne_nil (cs : List Char) : splitDots cs ≠ [] := by
  cases cs with
  | nil => rw [splitDots]; exact List.cons_ne_nil _ _
  | cons x xs =>
    rw [splitDots]
    by_cases h : x = '.' ∧ xs.take 2 = ['.', '.']
    · rw [if_pos h]; exact List.cons_ne_nil _ _
    · rw [if_neg h]
      cases hs : splitDots xs with
      | nil => exact List.cons_ne_nil _ _
      | cons p ps => exact List.cons_ne_nil _ _

/-- A string with no two consecutive dots contains no separator: splitting it
leaves it whole. -/
theorem splitDots_no_sep {b : List Char} (h : noTwoDots b) :
    splitDots b = [b] := by
  induction b with
  | nil => rw [splitDots]
  | cons x xs ih =>
    rw [splitDots]
    have hcond : ¬ (x = '.' ∧ xs.take 2 = ['.', '.']) := by
      rintro ⟨rfl, htake⟩
      cases xs with
      | nil => cases htake
      | cons y ys =>
        have hy : y = '.' := by
          have := congrArg List.head? htake
          simpa [List.take] using this
        exact (List.chain'_cons'.mp h).1 y rfl ⟨rfl, hy⟩
    rw [if_neg hcond, ih (List.Chain'.tail h)]

/-- Splitting a concatenation whose left part has no separator (no double
dot, and does not end in a dot) peels off exactly that left part. -/
theorem splitDots_append {a : List Char} (b : List Char) (h1 : noTwoDots a)
    (h2 : a.getLast? ≠ some '.') :
    splitDots (a ++ '.' :: '.' :: '.' :: b) = a :: splitDots b := by
  induction a with
  | nil =>
    rw [List.nil_append, splitDots, if_pos ⟨rfl, rfl⟩]
    rfl
  | cons x a2 ih =>
    rw [List.cons_append, splitDots]
    have hcond : ¬ (x = '.' ∧ (a2 ++ '.' :: '.' :: '.' :: b).take 2 = ['.', '.']) := by
      rintro ⟨rfl, htake⟩
      cases a2 with
      | nil =>
        simp only [List.getLast?_singleton] at h2
        exact h2 rfl
      | cons y a3 =>
        have hy : y = '.' := by
          have := congrArg List.head? htake
          simpa [List.take] using this
        exact (List.chain'_cons'.mp h1).1 y rfl ⟨rfl, hy⟩
    rw [if_neg hcond]
    have h2' : a2.getLast? ≠ some '.' := by
      cases a2 with
      | nil => simp
      | cons y a3 =>
        rw [List.getLast?_cons_cons] at h2
        exact h2
    rw [ih (List.Chain'.tail h1) h2']

theorem splitDots_eq_single_nil {cs : List Char} (h : splitDots cs = [[]]) :
    cs = [] := by
  cases cs with
  | nil => rfl
  | cons x xs =>
    exfalso
    rw [splitDots] at h
    by_cases hc : x = '.' ∧ xs.take 2 = ['.', '.']
    · rw [if_pos hc] at h
      have := (List.cons.injEq _ _ _ _).mp h
      exact splitDots_ne_nil _ this.2
    · rw [if_neg hc] at h
      cases hs : splitDots xs with
      | nil => exact splitDots_ne_nil _ hs
      | cons p ps =>
        rw [hs] at h
        have := (List.cons.injEq _ _ _ _).mp h
        exact List.cons_ne_nil x p this.1

theorem splitDots_eq_pair_nil {cs : List Char} (h : splitDots cs = [[], []]) :
    cs = ['.', '.', '.'] := by
  cases cs with
  | nil => rw [splitDots] at h; cases h
  | cons x xs =>
    rw [splitDots] at h
    by_cases hc : x = '.' ∧ xs.take 2 = ['.', '.']
    · rw [if_pos hc] at h
      have hrest := (List.cons.injEq _ _ _ _).mp h
      have hdrop : xs.drop 2 = [] := splitDots_eq_single_nil hrest.2
      have hxs : xs = ['.', '.'] := by
        have := List.take_append_drop 2 xs
        rw [hc.2, hdrop, List.append_nil] at this
        exact this.symm
      rw [hc.1, hxs]
    · exfalso
      rw [if_neg hc] at h
      cases hs : splitDots xs with
      | nil => exact splitDots_ne_nil _ hs
      | cons p ps =>
        rw [hs] at h
        have := (List.cons.injEq _ _ _ _).mp h
        exact List.cons_ne_nil x p this.1

/-- Splitting a serialized range on the separator recovers the two printed
sides. -/
theorem serialize_splits (r : VersionRange) :
    splitDots r.serialize
      = [(r.fst.map versionChars).getD [], (r.snd.map versionChars).getD []] := by
  unfold VersionRange.serialize
  have h1 : noTwoDots ((r.fst.map versionChars).getD []) := by
    cases r.fst with
    | none => exact List.chain'_nil
    | some v => exact versionChars_noTwoDots v
  have h2 : ((r.fst.map versionChars).getD []).getLast? ≠ some '.' := by
    cases r.fst with
    | none => simp
    | some v => exact versionChars_getLast_ne_dot v
  have h3 : noTwoDots ((r.snd.map versionChars).getD []) := by
    cases r.snd with
    | none => exact List.chain'_nil
    | some v => exact versionChars_noTwoDots v
  rw [splitDots_append _ h1 h2, splitDots_no_sep h3]

/-- Round trip: deserializing a serialized range recovers it exactly. -/
theorem deserialize_serialize (r : VersionRange) :
    VersionRange.deserialize r.serialize = .ok r := by
  unfold VersionRange.deserialize
  rw [serialize_splits]
  have hfst : parseSide ((r.fst.map versionChars).getD []) = .ok r.fst := by
    cases r.fst with
    | none => rfl
    | some v => exact parseSide_versionChars v
  have hsnd : parseSide ((r.snd.map versionChars).getD []) = .ok r.snd := by
    cases r.snd with
    | none => rfl
    | some v => exact parseSide_versionChars v
  simp only [hfst, hsnd]

/-- The deserializer accepts a range only when the text splits into exactly
two parts around the separator, both parseable; otherwise it errors. -/
theorem deserialize_ok_shape {cs : List Char} {r : VersionRange}
    (h : VersionRange.deserialize cs = .ok r) :
    ∃ p0 p1, splitDots cs = [p0, p1]
      ∧ parseSide p0 = .ok r.fst ∧ parseSide p1 = .ok r.snd := by
  unfold VersionRange.deserialize at h
  rcases hsp : splitDots cs with - | ⟨p0, - | ⟨p1, - | ⟨p2, rest⟩⟩⟩
  · rw [hsp] at h; cases h
  · rw [hsp] at h; cases h
  · rw [hsp] at h
    cases hp0 : parseSide p0 with
    | error e => simp only [hp0] at h; cases h
    | ok v0 =>
      cases hp1 : parseSide p1 with
      | error e => simp only [hp0, hp1] at h; cases h
      | ok v1 =>
        simp only [hp0, hp1] at h
        have hr : VersionRange.mk v0 v1 = r := by injection h
        exact ⟨p0, p1, rfl, by rw [hp0, ← hr], by rw [hp1, ← hr]⟩
  · rw [hsp] at h; cases h

/-- The only accepted input deserializing to a both-absent range is the bare
separator text itself. -/
theorem deserialize_both_none {cs : List Char}
    (h : VersionRange.deserialize cs = .ok ⟨none, none⟩) :
    cs = ['.', '.', '.'] := by
  obtain ⟨p0, p1, hsp, hp0, hp1⟩ := deserialize_ok_shape h
  have h0 : p0 = [] := parseSide_ok_none hp0
  have h1 : p1 = [] := parseSide_ok_none hp1
  subst h0 h1
  exact splitDots_eq_pair_nil hsp

/-- Ill-formed input (wrong number of separator-split parts) is rejected. -/
theorem deserialize_error_of_parts {cs : List Char}
    (h : (splitDots cs).length ≠ 2) :
    ∃ e, VersionRange.deserialize cs = .error e := by
  unfold VersionRange.deserialize
  rcases hsp : splitDots cs with - | ⟨p0, - | ⟨p1, - | ⟨p2, rest⟩⟩⟩
  · exact ⟨_, by simp only [hsp]; rfl⟩
  · exact ⟨_, by simp only [hsp]; rfl⟩
  · exact absurd (by rw [hsp]; rfl) h
  · exact ⟨_, by simp only [hsp]; rfl⟩

/-- Ill-formed input (a non-empty side failing to parse as a version) is
rejected. -/
theorem deserialize_error_of_bad_side {cs : List Char} {p0 p1 : List Char}
    (hsp : splitDots cs = [p0, p1])
    (hbad : (p0 ≠ [] ∧ versionFromChars p0 = none)
      ∨ (p1 ≠ [] ∧ versionFromChars p1 = none)) :
    ∃ e, VersionRange.deserialize cs = .error e := by
  unfold VersionRange.deserialize
  rw [hsp]
  rcases hbad with ⟨hne, hnone⟩ | ⟨hne, hnone⟩
  · have hp0 : parseSide p0 = .error "unexpected character" := by
      unfold parseSide
      rw [if_neg hne, hnone]
    exact ⟨_, by simp only [hp0]; rfl⟩
  · have hp1 : parseSide p1 = .error "unexpected character" := by
      unfold parseSide
      rw [if_neg hne, hnone]
    cases hp0 : parseSide p0 with
    | error e => exact ⟨e, by simp only [hp0]⟩
    | ok v0 => exact ⟨"unexpected character", by simp only [hp0, hp1]⟩

theorem chainEntries_length (w : World) :
    ∀ (l : List Version) (prev : Option Version),
      (chainEntries w prev l).length = l.length := by
  intro l
  induction l with
  | nil => intro prev; rfl
  | cons v rest ih =>
    intro prev
    rw [chainEntries, List.length_cons, ih, List.length_cons]

/-- The keys of the chain are the expected transitions: each version paired
with the version just before it (or absence for the first). -/
theorem chainEntries_keys (w : World) :
    ∀ (l : List Version) (prev : Option Version),
      keysOf (chainEntries w prev l)
        = List.zipWith (fun p v => VersionRange.mk p (some v))
            (prev :: l.map some) l := by
  intro l
  induction l with
  | nil => intro prev; rfl
  | cons v rest ih =>
    intro prev
    rw [chainEntries, keysOf_cons, List.map_cons, List.zipWith_cons_cons, ih]

/-- Every chain entry is a `VersionAdded` keyed by a transition that goes
strictly upward (and whose target is present). -/
theorem chainEntries_entry (w : World) :
    ∀ (l : List Version) (prev : Option Version),
      l.Sorted (· < ·) →
      (∀ v ∈ l, optVlt prev (some v)) →
      ∀ e ∈ chainEntries w prev l,
        (∃ t, e.2 = Diff.VersionAdded t) ∧ (∃ v ∈ l, e.1.snd = some v) ∧
          optVlt e.1.fst e.1.snd := by
  intro l
  induction l with
  | nil =>
    intro prev _ _ e he
    cases he
  | cons v rest ih =>
    intro prev hs hprev e he
    have hv : ∀ x ∈ rest, v < x := (List.sorted_cons.mp hs).1
    have hrest : rest.Sorted (· < ·) := (List.sorted_cons.mp hs).2
    rw [chainEntries] at he
    rcases List.mem_cons.mp he with rfl | he
    · exact ⟨⟨_, rfl⟩, ⟨v, List.mem_cons_self v rest, rfl⟩,
        hprev v (List.mem_cons_self v rest)⟩
    · obtain ⟨ht, ⟨u, hu, hsnd⟩, hlt⟩ :=
        ih (some v) hrest (fun x hx => hv x hx) e he
      exact ⟨ht, ⟨u, List.mem_cons.mpr (Or.inr hu), hsnd⟩, hlt⟩

/-- The first component of every chain key is at least `prev`. -/
theorem chainEntries_fst (w : World) :
    ∀ (l : List Version) (prev : Option Version),
      l.Sorted (· < ·) →
      (∀ v ∈ l, optVlt prev (some v)) →
      ∀ k ∈ keysOf (chainEntries w prev l),
        optVlt prev k.fst ∨ k.fst = prev := by
  intro l
  induction l with
  | nil =>
    intro prev _ _ k hk
    cases hk
  | cons v rest ih =>
    intro prev hs hprev k hk
    have hv : ∀ x ∈ rest, v < x := (List.sorted_cons.mp hs).1
    have hrest : rest.Sorted (· < ·) := (List.sorted_cons.mp hs).2
    rw [chainEntries, keysOf_cons] at hk
    rcases List.mem_cons.mp hk with rfl | hk
    · exact Or.inr rfl
    · rcases ih (some v) hrest (fun x hx => hv x hx) k hk with h | h
      · exact Or.inl (optVlt_trans (hprev v (List.mem_cons_self v rest)) h)
      · rw [h]
        exact Or.inl (hprev v (List.mem_cons_self v rest))

/-- The chain keys are strictly increasing. -/
theorem chainEntries_keys_sorted (w : World) :
    ∀ (l : List Version) (prev : Option Version),
      l.Sorted (· < ·) →
      (∀ v ∈ l, optVlt prev (some v)) →
      (keysOf (chainEntries w prev l)).Pairwise rlt := by
  intro l
  induction l with
  | nil =>
    intro prev _ _
    exact List.Pairwise.nil
  | cons v rest ih =>
    intro prev hs hprev
    have hv : ∀ x ∈ rest, v < x := (List.sorted_cons.mp hs).1
    have hrest : rest.Sorted (· < ·) := (List.sorted_cons.mp hs).2
    rw [chainEntries, keysOf_cons]
    refine List.pairwise_cons.mpr ⟨?_, ih (some v) hrest (fun x hx => hv x hx)⟩
    intro k hk
    rcases chainEntries_fst w rest (some v) hrest (fun x hx => hv x hx) k hk
      with h | h
    · exact Or.inl (optVlt_trans (hprev v (List.mem_cons_self v rest)) h)
    · refine Or.inl ?_
      show optVlt prev k.fst
      rw [h]
      exact hprev v (List.mem_cons_self v rest)

/-- Every entry of every successfully built diff record is either an upward
`VersionAdded` transition with a present target, or a `VersionRemoved`
transition with a present source and absent target. -/
theorem diff_world_entry_shape {fromw tow : Option World} {r : CombinedDiff}
    (hf : ∀ w, fromw = some w → w.versions.Sorted (· < ·))
    (ht : ∀ w, tow = some w → w.versions.Sorted (· < ·))
    (hok : diff_world fromw tow = .ok r) :
    ∀ k d, (k, d) ∈ r.diffs →
      ((∃ t, d = Diff.VersionAdded t) ∧ (∃ v, k.snd = some v) ∧
        optVlt k.fst k.snd) ∨
      (d = Diff.VersionRemoved ∧ (∃ v, k.fst = some v) ∧ k.snd = none) := by
  cases fromw with
  | none =>
    cases tow with
    | none => cases hok
    | some w =>
      rw [diff_world_added_eq w (ht w rfl)] at hok
      have hr : CombinedDiff.mk w.path_stem (chainEntries w none w.versions) = r := by
        injection hok
      intro k d hkd
      rw [← hr] at hkd
      obtain ⟨⟨t, h2⟩, ⟨u, -, hsnd⟩, hlt⟩ := chainEntries_entry w w.versions none
        (ht w rfl) (fun v _ => trivial) (k, d) hkd
      exact Or.inl ⟨⟨t, h2⟩, ⟨u, hsnd⟩, hlt⟩
  | some ow =>
    cases tow with
    | none =>
      rw [diff_world_removed_eq ow (hf ow rfl)] at hok
      have hr : CombinedDiff.mk ow.path_stem
          (ow.versions.map (fun v => (⟨some v, none⟩, Diff.VersionRemoved))) = r := by
        injection hok
      intro k d hkd
      rw [← hr] at hkd
      rcases List.mem_map.mp hkd with ⟨v, -, heq⟩
      have hk : k = ⟨some v, none⟩ := (congrArg Prod.fst heq).symm
      have hd : d = Diff.VersionRemoved := (congrArg Prod.snd heq).symm
      exact Or.inr ⟨hd, ⟨v, by rw [hk]⟩, by rw [hk]⟩
    | some nw =>
      rw [diff_world_changed_eq ow nw] at hok
      have hr : CombinedDiff.mk nw.path_stem (changedStep2 ow nw) = r := by
        injection hok
      intro k d hkd
      rw [← hr] at hkd
      rcases (changedStep2_mem ow nw (hf ow rfl) (ht nw rfl) k d).mp hkd with
        ⟨v, -, -, hk, hd⟩ | ⟨v, -, -, hk, hd⟩
      · refine Or.inl ⟨⟨_, hd⟩, ⟨v, by rw [hk]⟩, ?_⟩
        rw [hk]
        cases hfcv : find_closest_version v ow.versions with
        | none => trivial
        | some p =>
          exact ((find_closest_version_correct v ow.versions).2 p hfcv).2.1
      · exact Or.inr ⟨hd, ⟨v, by rw [hk]⟩, by rw [hk]⟩

/-- The diffs of every successfully built record are strictly sorted by
their `VersionRange` key. -/
theorem diff_world_diffs_sorted {fromw tow : Option World} {r : CombinedDiff}
    (hf : ∀ w, fromw = some w → w.versions.Sorted (· < ·))
    (ht : ∀ w, tow = some w → w.versions.Sorted (· < ·))
    (hok : diff_world fromw tow = .ok r) :
    (keysOf r.diffs).Pairwise rlt := by
  cases fromw with
  | none =>
    cases tow with
    | none => cases hok
    | some w =>
      rw [diff_world_added_eq w (ht w rfl)] at hok
      have hr : CombinedDiff.mk w.path_stem (chainEntries w none w.versions) = r := by
        injection hok
      rw [← hr]
      exact chainEntries_keys_sorted w w.versions none (ht w rfl)
        (fun v _ => trivial)
  | some ow =>
    cases tow with
    | none =>
      rw [diff_world_removed_eq ow (hf ow rfl)] at hok
      have hr : CombinedDiff.mk ow.path_stem
          (ow.versions.map (fun v => (⟨some v, none⟩, Diff.VersionRemoved))) = r := by
        injection hok
      rw [← hr]
      show (keysOf _).Pairwise rlt
      rw [keysOf, List.map_map]
      exact List.Pairwise.map _ (fun a b hab => Or.inl hab) (hf ow rfl)
    | some nw =>
      rw [diff_world_changed_eq ow nw] at hok
      have hr : CombinedDiff.mk nw.path_stem (changedStep2 ow nw) = r := by
        injection hok
      rw [← hr]
      exact changedStep2_sorted ow nw

theorem noTwoDots_of_B : ∀ {l : List Char}, noTwoDotsB l = true → noTwoDots l
  | [], _ => List.chain'_nil
  | [x], _ => List.chain'_singleton x
  | x :: y :: rest, h => by
    rw [noTwoDotsB, Bool.and_eq_true] at h
    refine List.chain'_cons.mpr ⟨?_, noTwoDots_of_B h.2⟩
    intro hxy
    rw [hxy.1, hxy.2] at h
    simp at h

/-- Deserializing the bare separator succeeds and returns the both-absent
range. -/
theorem deserialize_dots_eq :
    VersionRange.deserialize ['.', '.', '.'] = .ok ⟨none, none⟩ := by
  have h := splitDots_append (a := []) [] List.chain'_nil (by simp)
  rw [List.nil_append] at h
  have hsp : splitDots ['.', '.', '.'] = [[], []] := by
    rw [h, splitDots]
  unfold VersionRange.deserialize
  rw [hsp]
  rfl

/-- C2: in the added case (old world absent, new world present with versions
v1 < ... < vn) the returned diff record has exactly n entries, all
`VersionAdded`, the first keyed (absent, v1), each subsequent one keyed
(v(i-1), vi) and diffed against its immediate predecessor in ascending
order. -/
theorem diff_world_added_chain (w : World) (hw : w.versions.Sorted (· < ·)) :
    ∃ r, diff_world none (some w) = .ok r ∧
      r.diffs = chainEntries w none w.versions ∧
      r.diffs.length = w.versions.length ∧
      keysOf r.diffs
        = List.zipWith (fun p v => VersionRange.mk p (some v))
            (none :: w.versions.map some) w.versions ∧
      (∀ e ∈ r.diffs, ∃ t, e.2 = Diff.VersionAdded t) := by
  refine ⟨⟨w.path_stem, chainEntries w none w.versions⟩,
    diff_world_added_eq w hw, rfl, chainEntries_length w w.versions none,
    chainEntries_keys w w.versions none, ?_⟩
  intro e he
  exact (chainEntries_entry w w.versions none hw (fun v _ => trivial) e he).1

theorem diff_world_added_chain_witness :
    ∃ r, diff_world none (some wAdd) = .ok r ∧
      r.diffs = chainEntries wAdd none wAdd.versions ∧
      r.diffs.length = wAdd.versions.length ∧
      keysOf r.diffs
        = List.zipWith (fun p v => VersionRange.mk p (some v))
            (none :: wAdd.versions.map some) wAdd.versions ∧
      (∀ e ∈ r.diffs, ∃ t, e.2 = Diff.VersionAdded t) :=
  diff_world_added_chain wAdd (by decide)

/-- C3: the closest-predecessor resolver returns the maximum candidate
strictly below the target when one exists, absent otherwise, and never a
candidate at or above the target. -/
theorem find_closest_version_max_below (T : Version) (S : List Version) :
    ((∃ c ∈ S, c < T) →
      ∃ m, find_closest_version T S = some m ∧ m ∈ S ∧ m < T ∧
        ∀ c ∈ S, c < T → c ≤ m) ∧
    ((∀ c ∈ S, ¬ c < T) → find_closest_version T S = none) ∧
    (∀ m, find_closest_version T S = some m → m < T ∧ ¬ T ≤ m) := by
  obtain ⟨hnone, hsome⟩ := find_closest_version_correct T S
  refine ⟨?_, ?_, ?_⟩
  · rintro ⟨c, hc, hcT⟩
    cases hres : find_closest_version T S with
    | none => exact absurd hcT (hnone.mp hres c hc)
    | some m =>
      obtain ⟨h1, h2, h3⟩ := hsome m hres
      exact ⟨m, rfl, h1, h2, h3⟩
  · exact hnone.mpr
  · intro m hm
    have hlt := (hsome m hm).2.1
    exact ⟨hlt, not_le_of_lt hlt⟩

theorem find_closest_version_max_below_witness :
    ∃ m, find_closest_version ⟨0, 0, 4⟩ [⟨0, 0, 1⟩, ⟨0, 0, 3⟩, ⟨0, 0, 2⟩]
        = some m ∧
      m ∈ [⟨0, 0, 1⟩, ⟨0, 0, 3⟩, ⟨0, 0, 2⟩] ∧ m < ⟨0, 0, 4⟩ ∧
      ∀ c ∈ [(⟨0, 0, 1⟩ : Version), ⟨0, 0, 3⟩, ⟨0, 0, 2⟩], c < ⟨0, 0, 4⟩ → c ≤ m :=
  (find_closest_version_max_below ⟨0, 0, 4⟩ [⟨0, 0, 1⟩, ⟨0, 0, 3⟩, ⟨0, 0, 2⟩]).1
    ⟨⟨0, 0, 3⟩, by decide, by decide⟩

/-- C4: in the removed case (old world present, new world absent) the
returned diff record has exactly one `VersionRemoved` entry per version of
the old world, each keyed (version, absent) and carrying no diff text. -/
theorem diff_world_removed_entries (w : World)
    (hw : w.versions.Sorted (· < ·)) :
    ∃ r, diff_world (some w) none = .ok r ∧
      r.diffs = w.versions.map (fun v => (⟨some v, none⟩, Diff.VersionRemoved)) ∧
      r.diffs.length = w.versions.length ∧
      (∀ e ∈ r.diffs, e.2 = Diff.VersionRemoved ∧ e.1.snd = none) := by
  refine ⟨⟨w.path_stem,
    w.versions.map (fun v => (⟨some v, none⟩, Diff.VersionRemoved))⟩,
    diff_world_removed_eq w hw, rfl, List.length_map _ _, ?_⟩
  intro e he
  rcases List.mem_map.mp he with ⟨v, -, rfl⟩
  exact ⟨rfl, rfl⟩

theorem diff_world_removed_entries_witness :
    ∃ r, diff_world (some wAdd) none = .ok r ∧
      r.diffs = wAdd.versions.map (fun v => (⟨some v, none⟩, Diff.VersionRemoved)) ∧
      r.diffs.length = wAdd.versions.length ∧
      (∀ e ∈ r.diffs, e.2 = Diff.VersionRemoved ∧ e.1.snd = none) :=
  diff_world_removed_entries wAdd (by decide)

/-- C7: diffing a directory tree against an identical copy (byte-identical
content at every path) yields the empty string. -/
theorem diff_dir_identity (d d2 : DirTree)
    (h : ∀ p, readToString d p = readToString d2 p) :
    diff_dir d d2 = "" :=
  diff_dir_of_pointwise_eq h

theorem diff_dir_identity_witness :
    diff_dir [("VERSION", "0.0.1")] [("VERSION", "0.0.1")] = "" :=
  diff_dir_identity [("VERSION", "0.0.1")] [("VERSION", "0.0.1")]
    (fun p => rfl)

/-- C1: in the changed case (both worlds present), the diff record contains,
for every version only in the new world, exactly one `VersionAdded` entry
keyed by its closest predecessor from the old world's version set and the
version itself; for every version only in the old world exactly one
`VersionRemoved` entry keyed (version, absent); and no entry for a version
present in both worlds. -/
theorem diff_world_changed_entries (ow nw : World)
    (how : ow.versions.Sorted (· < ·)) (hnw : nw.versions.Sorted (· < ·)) :
    ∃ r, diff_world (some ow) (some nw) = .ok r ∧
      (keysOf r.diffs).Pairwise rlt ∧
      (∀ k d, ((k, d) ∈ r.diffs ↔
        (∃ v, v ∈ nw.versions ∧ v ∉ ow.versions ∧
          k = ⟨find_closest_version v ow.versions, some v⟩ ∧
          d = Diff.VersionAdded
            (diff_version ow (find_closest_version v ow.versions) nw
              (some v))) ∨
        (∃ v, v ∈ ow.versions ∧ v ∉ nw.versions ∧
          k = ⟨some v, none⟩ ∧ d = Diff.VersionRemoved))) ∧
      (∀ v, v ∈ nw.versions → v ∈ ow.versions →
        (∀ p d, (⟨p, some v⟩, d) ∉ r.diffs) ∧
        (∀ d, (⟨some v, none⟩, d) ∉ r.diffs)) := by
  refine ⟨⟨nw.path_stem, changedStep2 ow nw⟩, diff_world_changed_eq ow nw,
    changedStep2_sorted ow nw,
    fun k d => changedStep2_mem ow nw how hnw k d, ?_⟩
  intro v hvn hvo
  constructor
  · intro p d hmem
    rcases (changedStep2_mem ow nw how hnw ⟨p, some v⟩ d).mp hmem with
      ⟨w, -, hwo, hk, -⟩ | ⟨w, -, -, hk, -⟩
    · have hvw : v = w :=
        Option.some.inj (congrArg VersionRange.snd hk)
      exact hwo (hvw ▸ hvo)
    · have : some v = (none : Option Version) :=
        congrArg VersionRange.snd hk
      cases this
  · intro d hmem
    rcases (changedStep2_mem ow nw how hnw ⟨some v, none⟩ d).mp hmem with
      ⟨w, -, -, hk, -⟩ | ⟨w, hw, hwn, hk, -⟩
    · have : (none : Option Version) = some w :=
        congrArg VersionRange.snd hk
      cases this
    · have hvw : v = w := Option.some.inj (congrArg VersionRange.fst hk)
      exact hwn (hvw ▸ hvn)

theorem diff_world_changed_entries_witness :
    ∃ r, diff_world (some wAdd) (some wNew4) = .ok r ∧
      (keysOf r.diffs).Pairwise rlt ∧
      (∀ k d, ((k, d) ∈ r.diffs ↔
        (∃ v, v ∈ wNew4.versions ∧ v ∉ wAdd.versions ∧
          k = ⟨find_closest_version v wAdd.versions, some v⟩ ∧
          d = Diff.VersionAdded
            (diff_version wAdd (find_closest_version v wAdd.versions) wNew4
              (some v))) ∨
        (∃ v, v ∈ wAdd.versions ∧ v ∉ wNew4.versions ∧
          k = ⟨some v, none⟩ ∧ d = Diff.VersionRemoved))) ∧
      (∀ v, v ∈ wNew4.versions → v ∈ wAdd.versions →
        (∀ p d, (⟨p, some v⟩, d) ∉ r.diffs) ∧
        (∀ d, (⟨some v, none⟩, d) ∉ r.diffs)) :=
  diff_world_changed_entries wAdd wNew4 (by decide) (by decide)

/-- C5: serializing any version range to its textual form and deserializing
that text yields the original pair, absent endpoints included. -/
theorem versionRange_round_trip (r : VersionRange) :
    VersionRange.deserialize r.serialize = .ok r :=
  deserialize_serialize r

/-- C6: the range ordering puts an absent endpoint before a present one in
the same position and otherwise compares the from endpoint first and then
the to endpoint; and the diffs of every record built by `diff_world` are
iterated in exactly this order. -/
theorem versionRange_order_and_iteration :
    (∀ (x y : Option Version) (v : Version), rlt ⟨none, x⟩ ⟨some v, y⟩) ∧
    (∀ (f : Option Version) (v : Version), rlt ⟨f, none⟩ ⟨f, some v⟩) ∧
    (∀ a b a2 b2 : Version,
      rlt ⟨some a, some b⟩ ⟨some a2, some b2⟩
        ↔ (a < a2 ∨ (a = a2 ∧ b < b2))) ∧
    (∀ (fromw tow : Option World) (r : CombinedDiff),
      (∀ w, fromw = some w → w.versions.Sorted (· < ·)) →
      (∀ w, tow = some w → w.versions.Sorted (· < ·)) →
      diff_world fromw tow = .ok r →
      (keysOf r.diffs).Pairwise rlt) := by
  refine ⟨?_, ?_, ?_, ?_⟩
  · intro x y v
    exact Or.inl trivial
  · intro f v
    exact Or.inr ⟨rfl, trivial⟩
  · intro a b a2 b2
    constructor
    · rintro (h | ⟨he, h⟩)
      · exact Or.inl h
      · exact Or.inr ⟨Option.some.inj he, h⟩
    · rintro (h | ⟨rfl, h⟩)
      · exact Or.inl h
      · exact Or.inr ⟨rfl, h⟩
  · intro fromw tow r hf ht hok
    exact diff_world_diffs_sorted hf ht hok

theorem versionRange_order_and_iteration_witness :
    rlt ⟨none, some ⟨9, 9, 9⟩⟩ ⟨some ⟨0, 0, 1⟩, none⟩ ∧
    (keysOf (CombinedDiff.mk wNew4.path_stem (changedStep2 wAdd wNew4)).diffs).Pairwise rlt :=
  ⟨versionRange_order_and_iteration.1 (some ⟨9, 9, 9⟩) none ⟨0, 0, 1⟩,
   versionRange_order_and_iteration.2.2.2 (some wAdd) (some wNew4) _
     (fun w hw => (Option.some.inj hw) ▸
       (by decide : wAdd.versions.Sorted (· < ·)))
     (fun w hw => (Option.some.inj hw) ▸
       (by decide : wNew4.versions.Sorted (· < ·)))
     rfl⟩

/-- C8 counterexample: the deserializer does return a both-absent range for
an accepted input, namely the bare separator text. -/
theorem deserialize_triple_dots_both_absent :
    VersionRange.deserialize ['.', '.', '.'] = .ok ⟨none, none⟩ ∧
    (VersionRange.mk none none).fst = none ∧
    (VersionRange.mk none none).snd = none :=
  ⟨deserialize_dots_eq, rfl, rfl⟩

/-- C8 (amended): the diff builder never inserts a both-absent key, and the
deserializer returns a both-absent pair only for the bare separator input
itself. -/
theorem both_absent_never_built :
    (∀ (fromw tow : Option World) (r : CombinedDiff),
      (∀ w, fromw = some w → w.versions.Sorted (· < ·)) →
      (∀ w, tow = some w → w.versions.Sorted (· < ·)) →
      diff_world fromw tow = .ok r →
      ∀ k d, (k, d) ∈ r.diffs → ¬ (k.fst = none ∧ k.snd = none)) ∧
    (∀ (cs : List Char) (r : VersionRange),
      VersionRange.deserialize cs = .ok r → r.fst = none → r.snd = none →
      cs = ['.', '.', '.']) := by
  constructor
  · rintro fromw tow r hf ht hok k d hkd ⟨hfst, hsnd⟩
    rcases diff_world_entry_shape hf ht hok k d hkd with
      ⟨-, ⟨v, hv⟩, -⟩ | ⟨-, ⟨v, hv⟩, -⟩
    · rw [hsnd] at hv
      cases hv
    · rw [hfst] at hv
      cases hv
  · intro cs r hok h1 h2
    obtain ⟨f, sn⟩ := r
    simp only at h1 h2
    subst h1 h2
    exact deserialize_both_none hok

theorem both_absent_never_built_witness :
    (∀ k d,
      (k, d) ∈ (CombinedDiff.mk wNew4.path_stem (changedStep2 wAdd wNew4)).diffs →
      ¬ (k.fst = none ∧ k.snd = none)) ∧
    (['.', '.', '.'] : List Char) = ['.', '.', '.'] :=
  ⟨both_absent_never_built.1 (some wAdd) (some wNew4) _
     (fun w hw => (Option.some.inj hw) ▸
       (by decide : wAdd.versions.Sorted (· < ·)))
     (fun w hw => (Option.some.inj hw) ▸
       (by decide : wNew4.versions.Sorted (· < ·)))
     rfl,
   both_absent_never_built.2 ['.', '.', '.'] ⟨none, none⟩
     deserialize_dots_eq rfl rfl⟩

/-- C9: deserialization errors whenever the input does not split into
exactly two parts around the separator, or a non-empty part fails to parse
as a version; no ill-formed input is coerced. -/
theorem deserialize_rejects_ill_formed :
    (∀ cs : List Char, (splitDots cs).length ≠ 2 →
      ∃ e, VersionRange.deserialize cs = .error e) ∧
    (∀ (cs p0 p1 : List Char), splitDots cs = [p0, p1] →
      ((p0 ≠ [] ∧ versionFromChars p0 = none)
        ∨ (p1 ≠ [] ∧ versionFromChars p1 = none)) →
      ∃ e, VersionRange.deserialize cs = .error e) :=
  ⟨fun cs h => deserialize_error_of_parts h,
   fun cs p0 p1 hsp hbad => deserialize_error_of_bad_side hsp hbad⟩

theorem deserialize_rejects_ill_formed_witness :
    (∃ e, VersionRange.deserialize ['1'] = .error e) ∧
    (∃ e, VersionRange.deserialize
      ['0', '1', '.', '0', '.', '0', '.', '.', '.', '2', '.', '0', '.', '0']
      = .error e) := by
  constructor
  · refine deserialize_rejects_ill_formed.1 ['1'] ?_
    rw [splitDots_no_sep (noTwoDots_of_B (by decide))]
    decide
  · refine deserialize_rejects_ill_formed.2 _
      ['0', '1', '.', '0', '.', '0'] ['2', '.', '0', '.', '0'] ?_ ?_
    · have h := splitDots_append (a := ['0', '1', '.', '0', '.', '0'])
        ['2', '.', '0', '.', '0'] (noTwoDots_of_B (by decide)) (by decide)
      rw [show (['0', '1', '.', '0', '.', '0'] : List Char)
          ++ '.' :: '.' :: '.' :: ['2', '.', '0', '.', '0']
          = ['0', '1', '.', '0', '.', '0', '.', '.', '.', '2', '.', '0', '.', '0']
        from rfl] at h
      rw [h, splitDots_no_sep (noTwoDots_of_B (by decide))]
    · exact Or.inl ⟨by decide, by decide⟩

/-- C10: in every case of the diff builder, `VersionAdded` entries have a
present to endpoint, `VersionRemoved` entries a present from endpoint and an
absent to endpoint, and every two-sided key goes strictly upward. -/
theorem diff_world_key_invariants (fromw tow : Option World) (r : CombinedDiff)
    (hf : ∀ w, fromw = some w → w.versions.Sorted (· < ·))
    (ht : ∀ w, tow = some w → w.versions.Sorted (· < ·))
    (hok : diff_world fromw tow = .ok r) :
    ∀ k d, (k, d) ∈ r.diffs →
      (∀ t, d = Diff.VersionAdded t → ∃ v, k.snd = some v) ∧
      (d = Diff.VersionRemoved → (∃ v, k.fst = some v) ∧ k.snd = none) ∧
      (∀ a b, k.fst = some a → k.snd = some b → a < b) := by
  intro k d hkd
  rcases diff_world_entry_shape hf ht hok k d hkd with
    ⟨⟨t, hd⟩, ⟨v, hsnd⟩, hlt⟩ | ⟨hd, ⟨v, hfst⟩, hsnd⟩
  · refine ⟨fun t2 _ => ⟨v, hsnd⟩, fun hrem => ?_, fun a b hfa hsb => ?_⟩
    · rw [hd] at hrem
      cases hrem
    · rw [hfa, hsb] at hlt
      exact hlt
  · refine ⟨fun t ht2 => ?_, fun _ => ⟨⟨v, hfst⟩, hsnd⟩,
      fun a b hfa hsb => ?_⟩
    · rw [hd] at ht2
      cases ht2
    · rw [hsnd] at hsb
      cases hsb

theorem diff_world_key_invariants_witness :
    (∀ t, Diff.VersionRemoved = Diff.VersionAdded t →
      ∃ v, (VersionRange.mk (some ⟨0, 0, 2⟩) none).snd = some v) ∧
    (Diff.VersionRemoved = Diff.VersionRemoved →
      (∃ v, (VersionRange.mk (some ⟨0, 0, 2⟩) none).fst = some v) ∧
      (VersionRange.mk (some ⟨0, 0, 2⟩) none).snd = none) ∧
    (∀ a b, (VersionRange.mk (some ⟨0, 0, 2⟩) none).fst = some a →
      (VersionRange.mk (some ⟨0, 0, 2⟩) none).snd = some b → a < b) :=
  diff_world_key_invariants (some wAdd) (some wNew4) _
    (fun w hw => (Option.some.inj hw) ▸
      (by decide : wAdd.versions.Sorted (· < ·)))
    (fun w hw => (Option.some.inj hw) ▸
      (by decide : wNew4.versions.Sorted (· < ·)))
    rfl ⟨some ⟨0, 0, 2⟩, none⟩ Diff.VersionRemoved (by decide)

end APWM
